import Mathlib

/-!
Verification of the core of `shiki-map` (`src/main.py`): the action-text
parser / per-title state machine (`HistoryItem`), the history ledger
(`History.process`) and the windowed aggregator (`History.show`).

Embedding conventions:
* Python strings are modelled as `List Char`; `s.find(sub) != -1` becomes
  `containsSub s sub`.
* `datetime` values are modelled at day granularity as `Int` day numbers
  (all date arithmetic in the source uses `timedelta(days=...)`, and
  `History.show` truncates datetimes to dates before aggregating, so the
  truncation `dt.date()` is the identity in this model).
* Python `int` is `Int`.
* The memoized network lookup `get_duration_info` is passed explicitly as a
  pure function `lookup : List Char → Int × Int` (the source treats the
  cached lookup as a pure `(episodes, duration)` map).
* Raised exceptions are modelled with `Except String`.
-/

namespace ShikiMap

/-- Python `s.find(pat) != -1`: `pat` occurs as a contiguous substring of `s`. -/
def containsSub (s pat : List Char) : Bool :=
  match s with
  | [] => pat.isEmpty
  | _ :: t => pat.isPrefixOf s || containsSub t pat

/-- Split a maximal leading run of ASCII digits (the greedy `\d+`) from a string. -/
def takeDigits : List Char → List Char × List Char
  | [] => ([], [])
  | c :: cs =>
    if c.isDigit then
      ((takeDigits cs).1.cons c, (takeDigits cs).2)
    else ([], c :: cs)

/-- `re.findall` for `SINGLE_EPISODE_REGEX = (\d+)-(?:й|го)`: scan left to
right; at a digit, take the maximal digit run, require `-й` or `-го` right
after it, record the captured digit run and continue after the match;
otherwise advance one character.  The fuel argument is the scan position
budget; it starts at the string length and dominates the remaining suffix
length at every call, so it never runs out before the suffix does. -/
def findOrdinalsAux : Nat → List Char → List (List Char)
  | 0, _ => []
  | _, [] => []
  | fuel + 1, c :: cs =>
    if c.isDigit then
      match takeDigits (c :: cs) with
      | (ds, '-' :: 'й' :: r2) => ds :: findOrdinalsAux fuel r2
      | (ds, '-' :: 'г' :: 'о' :: r2) => ds :: findOrdinalsAux fuel r2
      | _ => findOrdinalsAux fuel cs
    else findOrdinalsAux fuel cs

/-- All ordinal episode markers `(\d+)-(?:й|го)` in the text, leftmost first. -/
def findOrdinals (s : List Char) : List (List Char) :=
  findOrdinalsAux s.length s

/-- `re.findall` for `EPISODES_COUNT_REGEX = (\d+) эпизод`: digits followed
by the literal ` эпизод`. Same scanning discipline as `findOrdinalsAux`. -/
def findCountsAux : Nat → List Char → List (List Char)
  | 0, _ => []
  | _, [] => []
  | fuel + 1, c :: cs =>
    if c.isDigit then
      match takeDigits (c :: cs) with
      | (ds, ' ' :: 'э' :: 'п' :: 'и' :: 'з' :: 'о' :: 'д' :: r2) => ds :: findCountsAux fuel r2
      | _ => findCountsAux fuel cs
    else findCountsAux fuel cs

/-- All explicit count markers `(\d+) эпизод` in the text, leftmost first. -/
def findCounts (s : List Char) : List (List Char) :=
  findCountsAux s.length s

/-- Python `int` on a run of ASCII digits. -/
def digitsToNat (ds : List Char) : Nat :=
  ds.foldl (fun a c => 10 * a + (c.toNat - 48)) 0

/-- The removal phrase checked first by `HistoryItem.edit`. -/
def removalPhrase : List Char := "удалено из списка".data

/-- The viewing-action phrase: actions without it are ignored. -/
def viewPhrase : List Char := "просмотр".data

/-- The range connective ` по ` distinguishing ordinal ranges from lists. -/
def rangePhrase : List Char := " по ".data

/-- Per-title state, `HistoryItem` in the source: `timestamps` is the event
log of `(date, episode_delta)` pairs, `current_episode` the progress of the
in-flight cycle, `total_views` the completed-cycle counter. -/
structure HistoryItem where
  title : List Char
  href : List Char
  timestamps : List (Int × Int)
  current_episode : Int
  total_views : Int
  deriving DecidableEq, Repr

/-- The tagged outcomes of one `edit` call; the source returns them as the
tuples `(-1,)`, `(0,)`, `(1, ep_count)` and `(2, ep_count, total_views)`. -/
inductive EditResult where
  | removed
  | ignored
  | watched (delta : Int)
  | completedView (delta : Int) (views : Int)
  deriving DecidableEq, Repr

/-- `HistoryItem.clear`: resets the event log, `current_episode` and
`total_views` (the source's `clear` reinitializes all three fields). -/
def HistoryItem.clear (it : HistoryItem) : HistoryItem :=
  { it with timestamps := [], current_episode := 0, total_views := 0 }

/-- `HistoryItem.edit(action, date)`: the cascading pattern match of the
source, in its exact priority order: removal phrase, non-viewing text,
explicit episode count, ordinal list / `по`-range, fallback completion via
the duration lookup. -/
def HistoryItem.edit (lookup : List Char → Int × Int) (it : HistoryItem)
    (action : List Char) (date : Int) : Except String (EditResult × HistoryItem) :=
  if containsSub action removalPhrase then
    .ok (.removed, it.clear)
  else if containsSub action viewPhrase = false then
    .ok (.ignored, it)
  else
    match findCounts action with
    | ds :: _ =>
      let ep : Int := (digitsToNat ds : Int)
      .ok (.watched ep,
        { it with timestamps := it.timestamps ++ [(date, ep)],
                  current_episode := it.current_episode + ep })
    | [] =>
      match findOrdinals action with
      | [] =>
        let total := (lookup it.href).1
        if total = 0 then
          .error "Trying to complete on-going anime"
        else
          let ep := total - it.current_episode
          .ok (.completedView ep (it.total_views + 1),
            { it with timestamps := it.timestamps ++ [(date, ep)],
                      current_episode := 0,
                      total_views := it.total_views + 1 })
      | ms =>
        if containsSub action rangePhrase = false then
          let ep : Int := (ms.length : Int)
          .ok (.watched ep,
            { it with timestamps := it.timestamps ++ [(date, ep)],
                      current_episode := it.current_episode + ep })
        else
          match ms with
          | [lo, hi] =>
            let ep : Int := (digitsToNat hi : Int) - (digitsToNat lo : Int) + 1
            .ok (.watched ep,
              { it with timestamps := it.timestamps ++ [(date, ep)],
                        current_episode := it.current_episode + ep })
          | _ => .error ("Invalid action (episode range): " ++ String.mk action)

/-- One already-extracted log line, the data `History.process` pulls out of
the external pyquery row: the `a.db-entry` link (absent for non-title rows),
the `.name-en` display title, the action text and the timestamp. -/
structure Entry where
  href : Option (List Char)
  title : List Char
  action : List Char
  date : Int

/-- Dict lookup on the ledger's insertion-ordered title map. -/
def findItem : List (List Char × HistoryItem) → List Char → Option HistoryItem
  | [], _ => none
  | (k, v) :: rest, t => if k = t then some v else findItem rest t

/-- Dict assignment on the ledger's title map: update in place, or append a
new binding at the end (Python dicts preserve insertion order). -/
def setItem : List (List Char × HistoryItem) → List Char → HistoryItem →
    List (List Char × HistoryItem)
  | [], t, v => [(t, v)]
  | (k, w) :: rest, t, v => if k = t then (t, v) :: rest else (k, w) :: setItem rest t v

/-- `History.process(history_line)`: skip rows without a link, create the
title's record on first sight (keyed by the display title), then delegate to
`edit` and store the updated record.  The verbose console report of the
source is presentation-only and not modelled.  The `KeyError` arm is
unreachable: the key was just inserted. -/
def History.process (lookup : List Char → Int × Int)
    (items : List (List Char × HistoryItem)) (e : Entry) :
    Except String (List (List Char × HistoryItem)) :=
  match e.href with
  | none => .ok items
  | some href =>
    let items1 := match findItem items e.title with
      | some _ => items
      | none => setItem items e.title ⟨e.title, href, [], 0, 0⟩
    match findItem items1 e.title with
    | none => .error "KeyError"
    | some it =>
      match it.edit lookup e.action e.date with
      | .error m => .error m
      | .ok (_, it2) => .ok (setItem items1 e.title it2)

/-- Dict accumulation `result[date] += minutes` / `result[date] = minutes`
used by `History.show` to build the daily-minutes map. -/
def addResult : List (Int × Int) → Int → Int → List (Int × Int)
  | [], d, v => [(d, v)]
  | (k, w) :: rest, d, v => if k = d then (k, w + v) :: rest else (k, w) :: addResult rest d v

/-- The daily-minutes map of `History.show`: for every title with a nonempty
event log, each `(date, ep_count)` event contributes
`ep_count * minutes_per_episode` to its date's bucket. -/
def buildDaily (lookup : List Char → Int × Int)
    (items : List (List Char × HistoryItem)) : List (Int × Int) :=
  items.foldl
    (fun res p =>
      if p.2.timestamps.isEmpty then res
      else p.2.timestamps.foldl (fun r q => addResult r q.1 (q.2 * (lookup p.2.href).2)) res)
    []

/-- Comparison by date used to sort the daily pairs chronologically. -/
def keyLE (p q : Int × Int) : Prop := p.1 ≤ q.1

instance : DecidableRel keyLE := fun p q => inferInstanceAs (Decidable (p.1 ≤ q.1))

instance : IsTotal (Int × Int) keyLE := ⟨fun p q => le_total p.1 q.1⟩

instance : IsTrans (Int × Int) keyLE := ⟨fun _ _ _ h1 h2 => le_trans h1 h2⟩

/-- `sorted(zip(dates, episodes), key=lambda t: t[0])`: the dates are
pairwise distinct (dict keys), so any comparison sort by date produces the
same list; we use insertion sort. -/
def sortPairs (l : List (Int × Int)) : List (Int × Int) := List.insertionSort keyLE l

/-- `dates[-1]`: the date of the last pair. -/
def lastDate : List (Int × Int) → Int
  | [] => 0
  | [p] => p.1
  | _ :: q :: rest => lastDate (q :: rest)

/-- The inner `while right >= 0 and dates[right] > current_date` loop of the
scan: the pointer is stored as index+1, so `0` is Python's `-1`. -/
def subLoop (evs : List (Int × Int)) (cd : Int) : Nat → Int → Nat × Int
  | 0, acc => (0, acc)
  | rp + 1, acc =>
    if cd < (evs.getD rp (0, 0)).1 then subLoop evs cd rp (acc - (evs.getD rp (0, 0)).2)
    else (rp + 1, acc)

/-- The inner `while left >= 0 and current_date - dates[left] < span_delta`
loop of the scan, same index+1 convention. -/
def addLoop (evs : List (Int × Int)) (cd span : Int) : Nat → Int → Nat × Int
  | 0, acc => (0, acc)
  | lp + 1, acc =>
    if cd - (evs.getD lp (0, 0)).1 < span then addLoop evs cd span lp (acc + (evs.getD lp (0, 0)).2)
    else (lp + 1, acc)

/-- The `while left >= 0` sampling loop of `History.show`: each iteration
recedes the sample date by `step`, runs the two pointer loops, and records
the sample `(current_date, running_total)`.  Python appends each sample to
`keys`/`vals` after the sentinel pair `(dates[-1] + step, 0)`; here the
samples after the sentinel are returned directly, newest first, and the
sentinel is the initial `(cd, acc)` argument pair, never emitted.  For
`step ≤ 0` the source loop does not terminate once an event lies `span` or
more days before the sample date, so the model stops emitting there; every
theorem below assumes `0 < step`. -/
def scan (evs : List (Int × Int)) (span step : Int) (cd : Int) (rp lp : Nat) (acc : Int) :
    List (Int × Int) :=
  if lp = 0 then []
  else
    match h1 : subLoop evs (cd - step) rp acc with
    | (rp', acc1) =>
      match h2 : addLoop evs (cd - step) span lp acc1 with
      | (lp', acc2) =>
        (cd - step, acc2) ::
          (if h : 0 < step then scan evs span step (cd - step) rp' lp' acc2 else [])
termination_by (lp, (cd - (evs.getD (lp - 1) (0, 0)).1 - span).toNat)
decreasing_by
  have hle : ∀ n a, (addLoop evs (cd - step) span n a).1 ≤ n := by
    intro n
    induction n with
    | zero => intro a; simp [addLoop]
    | succ k ih =>
      intro a
      rw [addLoop]
      by_cases hc : (cd - step) - (evs.getD k (0, 0)).1 < span
      · rw [if_pos hc]; exact Nat.le_succ_of_le (ih _)
      · rw [if_neg hc]
  have hle2 := hle lp acc1
  rw [h2] at hle2
  rcases Nat.lt_or_ge lp' lp with hlt | hge
  · exact Prod.Lex.left _ _ hlt
  · have heq : lp' = lp := le_antisymm hle2 hge
    subst heq
    obtain ⟨k, rfl⟩ : ∃ k, lp' = k + 1 := ⟨lp' - 1, by omega⟩
    have hstop : ¬((cd - step) - (evs.getD k (0, 0)).1 < span) := by
      intro hc
      rw [addLoop, if_pos hc] at h2
      have hk := hle k (acc1 + (evs.getD k (0, 0)).2)
      rw [h2] at hk
      simp at hk
    apply Prod.Lex.right
    simp only [Nat.add_sub_cancel]
    omega

/-- `History.show(span, step)`: build and sort the daily-minutes pairs (the
`kv[0]` unpack raises `IndexError` when the map is empty), then run the
backward two-pointer scan from `dates[-1] + step` with both pointers at the
last index, seeding the running total with the sentinel value `0`.  The
plotted series `keys[:0:-1], vals[:0:-1]` is the reversed sample list. -/
def History.show (lookup : List Char → Int × Int)
    (items : List (List Char × HistoryItem)) (span step : Int) :
    Except String (List (Int × Int)) :=
  let evs := sortPairs (buildDaily lookup items)
  if evs.isEmpty then .error "list index out of range"
  else .ok (scan evs span step (lastDate evs + step) evs.length evs.length 0).reverse

/-- Membership of an event date `e` in the trailing window of sample date
`c`: strictly newer than the `span`-days-old boundary, and not after the
sample date. -/
abbrev inWindow (span c e : Int) : Prop := c - span < e ∧ e ≤ c

/-- The total minutes of the events inside the trailing window of `c`. -/
def windowSum (evs : List (Int × Int)) (span c : Int) : Int :=
  ((evs.filter fun q => decide (inWindow span c q.1)).map Prod.snd).sum

/-- Number of events dated on or before `c`; on a chronologically sorted
list this is the index right after the last such event. -/
def cutLE (evs : List (Int × Int)) (c : Int) : Nat :=
  evs.countP fun p => decide (p.1 ≤ c)

/-- Sum of the minutes of the events from index `k` on. -/
def sumFrom (evs : List (Int × Int)) (k : Nat) : Int :=
  ((evs.drop k).map Prod.snd).sum

/-- A concrete one-title ledger used by the aggregator witnesses. -/
def lkW : List Char → Int × Int := fun _ => (12, 30)

/-- One title with a single event of 2 episodes on day 0. -/
def itemsW : List (List Char × HistoryItem) :=
  [("t".data, ⟨"t".data, "h".data, [(0, 2)], 2, 0⟩)]

lemma getD_eq (evs : List (Int × Int)) {i : Nat} (hi : i < evs.length) :
    evs.getD i (0, 0) = evs[i] := by
  simp [List.getD_eq_getElem?_getD, List.getElem?_eq_getElem hi]

lemma cutLE_le_length (evs : List (Int × Int)) (c : Int) : cutLE evs c ≤ evs.length := by
  unfold cutLE
  exact List.countP_le_length _

lemma cutLE_mono (evs : List (Int × Int)) {c c' : Int} (h : c ≤ c') :
    cutLE evs c ≤ cutLE evs c' := by
  refine List.countP_mono_left fun p _ hp => ?_
  simp only [decide_eq_true_eq] at hp ⊢
  omega

lemma cutLE_getElem_iff {evs : List (Int × Int)} (hs : List.Pairwise keyLE evs) (c : Int) :
    ∀ i, (hi : i < evs.length) → (i < cutLE evs c ↔ evs[i].1 ≤ c) := by
  induction evs with
  | nil => intro i hi; simp at hi
  | cons p t ih =>
    rw [List.pairwise_cons] at hs
    intro i hi
    have hcut : cutLE (p :: t) c = cutLE t c + if p.1 ≤ c then 1 else 0 := by
      simp [cutLE, List.countP_cons]
    cases i with
    | zero =>
      simp only [List.getElem_cons_zero]
      constructor
      · intro h0
        by_contra hpc
        have ht0 : cutLE t c = 0 := by
          simp only [cutLE, List.countP_eq_zero, decide_eq_true_eq]
          intro q hq
          have := hs.1 q hq
          unfold keyLE at this
          omega
        rw [hcut, if_neg hpc, ht0] at h0
        omega
      · intro hpc
        rw [hcut, if_pos hpc]
        omega
    | succ j =>
      simp only [List.getElem_cons_succ]
      have hj : j < t.length := by simpa using hi
      have hiff := ih hs.2 j hj
      rw [hcut]
      by_cases hpc : p.1 ≤ c
      · rw [if_pos hpc]
        omega
      · rw [if_neg hpc]
        have ht0 : cutLE t c = 0 := by
          simp only [cutLE, List.countP_eq_zero, decide_eq_true_eq]
          intro q hq
          have := hs.1 q hq
          unfold keyLE at this
          omega
        constructor
        · intro h; omega
        · intro h
          exfalso
          have := hs.1 _ (List.getElem_mem hj)
          unfold keyLE at this
          omega

lemma cutLE_le_of_gt {evs : List (Int × Int)} (hs : List.Pairwise keyLE evs) {c : Int}
    {i : Nat} (hi : i < evs.length) (h : c < evs[i].1) : cutLE evs c ≤ i := by
  by_contra hlt
  have := (cutLE_getElem_iff hs c i hi).1 (by omega)
  omega

lemma lt_cutLE {evs : List (Int × Int)} (hs : List.Pairwise keyLE evs) {c : Int}
    {i : Nat} (hi : i < evs.length) (h : evs[i].1 ≤ c) : i < cutLE evs c :=
  (cutLE_getElem_iff hs c i hi).2 h

lemma sumFrom_length (evs : List (Int × Int)) : sumFrom evs evs.length = 0 := by
  simp [sumFrom]

lemma sumFrom_succ (evs : List (Int × Int)) {i : Nat} (hi : i < evs.length) :
    sumFrom evs i = evs[i].2 + sumFrom evs (i + 1) := by
  unfold sumFrom
  rw [List.drop_eq_getElem_cons hi, List.map_cons, List.sum_cons]

lemma subLoop_spec {evs : List (Int × Int)} (hs : List.Pairwise keyLE evs) (c : Int) :
    ∀ rp, rp ≤ evs.length → cutLE evs c ≤ rp → ∀ acc,
      subLoop evs c rp acc = (cutLE evs c, acc + sumFrom evs rp - sumFrom evs (cutLE evs c)) := by
  intro rp
  induction rp with
  | zero =>
    intro _ hcut acc
    have h0 : cutLE evs c = 0 := Nat.le_zero.mp hcut
    simp [subLoop, h0]
  | succ k ih =>
    intro hlen hcut acc
    have hk : k < evs.length := hlen
    rw [subLoop, getD_eq evs hk]
    by_cases hc : c < evs[k].1
    · rw [if_pos hc]
      have hcut' : cutLE evs c ≤ k := cutLE_le_of_gt hs hk hc
      rw [ih (le_of_lt hk) hcut' _]
      simp only [Prod.mk.injEq, true_and]
      rw [sumFrom_succ evs hk]
      ring
    · rw [if_neg hc]
      push_neg at hc
      have h1 : k < cutLE evs c := lt_cutLE hs hk hc
      have h2 : cutLE evs c = k + 1 := le_antisymm hcut h1
      rw [h2]
      simp only [Prod.mk.injEq, true_and]
      ring

lemma addLoop_spec {evs : List (Int × Int)} (hs : List.Pairwise keyLE evs) (c span : Int) :
    ∀ lp, lp ≤ evs.length → cutLE evs (c - span) ≤ lp → ∀ acc,
      addLoop evs c span lp acc =
        (cutLE evs (c - span),
         acc + sumFrom evs (cutLE evs (c - span)) - sumFrom evs lp) := by
  intro lp
  induction lp with
  | zero =>
    intro _ hcut acc
    have h0 : cutLE evs (c - span) = 0 := Nat.le_zero.mp hcut
    simp [addLoop, h0]
  | succ k ih =>
    intro hlen hcut acc
    have hk : k < evs.length := hlen
    rw [addLoop, getD_eq evs hk]
    by_cases hc : c - evs[k].1 < span
    · rw [if_pos hc]
      have hcut' : cutLE evs (c - span) ≤ k := cutLE_le_of_gt hs hk (by omega)
      rw [ih (le_of_lt hk) hcut' _]
      simp only [Prod.mk.injEq, true_and]
      rw [sumFrom_succ evs hk]
      ring
    · rw [if_neg hc]
      have h1 : k < cutLE evs (c - span) := lt_cutLE hs hk (by omega)
      have h2 : cutLE evs (c - span) = k + 1 := le_antisymm hcut h1
      rw [h2]
      simp only [Prod.mk.injEq, true_and]
      ring

lemma filter_eq_take {evs : List (Int × Int)} (hs : List.Pairwise keyLE evs) (x : Int) :
    (evs.filter fun p => decide (p.1 ≤ x)) = evs.take (cutLE evs x) := by
  induction evs with
  | nil => simp
  | cons p t ih =>
    rw [List.pairwise_cons] at hs
    have hcut : cutLE (p :: t) x = cutLE t x + if p.1 ≤ x then 1 else 0 := by
      simp [cutLE, List.countP_cons]
    by_cases hp : p.1 ≤ x
    · rw [List.filter_cons_of_pos (by simpa using hp), hcut, if_pos hp, List.take_succ_cons]
      rw [ih hs.2]
    · have ht0 : cutLE t x = 0 := by
        simp only [cutLE, List.countP_eq_zero, decide_eq_true_eq]
        intro q hq
        have := hs.1 q hq
        unfold keyLE at this
        omega
      rw [List.filter_cons_of_neg (by simpa using hp), hcut, if_neg hp, ht0]
      rw [List.filter_eq_nil_iff.mpr ?_, List.take_zero]
      intro q hq
      have := hs.1 q hq
      unfold keyLE at this
      simp only [decide_eq_true_eq]
      omega

lemma windowSum_split (evs : List (Int × Int)) {span : Int} (hsp : 0 ≤ span) (c : Int) :
    windowSum evs span c =
      ((evs.filter fun p => decide (p.1 ≤ c)).map Prod.snd).sum -
      ((evs.filter fun p => decide (p.1 ≤ c - span)).map Prod.snd).sum := by
  induction evs with
  | nil => simp [windowSum]
  | cons p t ih =>
    unfold windowSum at ih ⊢
    by_cases h2 : p.1 ≤ c <;> by_cases h3 : p.1 ≤ c - span
    · rw [List.filter_cons_of_neg (by simp only [decide_eq_true_eq]; unfold inWindow; omega),
          List.filter_cons_of_pos (by simpa using h2),
          List.filter_cons_of_pos (by simpa using h3)]
      simp only [List.map_cons, List.sum_cons]
      omega
    · rw [List.filter_cons_of_pos (by simp only [decide_eq_true_eq]; unfold inWindow; omega),
          List.filter_cons_of_pos (by simpa using h2),
          List.filter_cons_of_neg (by simpa using h3)]
      simp only [List.map_cons, List.sum_cons]
      omega
    · omega
    · rw [List.filter_cons_of_neg (by simp only [decide_eq_true_eq]; unfold inWindow; omega),
          List.filter_cons_of_neg (by simpa using h2),
          List.filter_cons_of_neg (by simpa using h3)]
      omega

lemma sum_take_eq (evs : List (Int × Int)) {k : Nat} (hk : k ≤ evs.length) :
    ((evs.take k).map Prod.snd).sum = (evs.map Prod.snd).sum - sumFrom evs k := by
  have hsplit : (evs.map Prod.snd).sum =
      ((evs.take k).map Prod.snd).sum + ((evs.drop k).map Prod.snd).sum := by
    conv_lhs => rw [← List.take_append_drop k evs]
    rw [List.map_append, List.sum_append]
  unfold sumFrom
  omega

lemma windowSum_eq {evs : List (Int × Int)} (hs : List.Pairwise keyLE evs) {span : Int}
    (hsp : 0 ≤ span) (c : Int) :
    windowSum evs span c = sumFrom evs (cutLE evs (c - span)) - sumFrom evs (cutLE evs c) := by
  rw [windowSum_split evs hsp c, filter_eq_take hs c, filter_eq_take hs (c - span)]
  rw [sum_take_eq evs (cutLE_le_length evs c), sum_take_eq evs (cutLE_le_length evs (c - span))]
  ring

/-- Unfolding equation for one iteration of the sampling loop. -/
lemma scan_cons (evs : List (Int × Int)) (span step cd : Int) (rp lp : Nat) (acc : Int)
    (hlp : lp ≠ 0) :
    scan evs span step cd rp lp acc =
      (cd - step, (addLoop evs (cd - step) span lp (subLoop evs (cd - step) rp acc).2).2) ::
        (if 0 < step then
           scan evs span step (cd - step) (subLoop evs (cd - step) rp acc).1
             (addLoop evs (cd - step) span lp (subLoop evs (cd - step) rp acc).2).1
             (addLoop evs (cd - step) span lp (subLoop evs (cd - step) rp acc).2).2
         else []) := by
  rw [scan, if_neg hlp]
  rcases h1 : subLoop evs (cd - step) rp acc with ⟨rp1, acc1⟩
  rcases h2 : addLoop evs (cd - step) span lp acc1 with ⟨lp1, acc2⟩
  simp only [h1, h2, dite_eq_ite]

/-- Every sample the scan emits is a trailing-window sum, bounded above by
the first sample date `cd - step`, and the emitted sample dates are strictly
decreasing.  The pointer hypotheses say the two pointers have not yet passed
the cut indices of the next sample date, and `acc` is the running total of
the events added so far minus those subtracted so far. -/
lemma scan_spec {evs : List (Int × Int)} (hs : List.Pairwise keyLE evs) (span step : Int)
    (hsp : 0 ≤ span) (cd : Int) (rp lp : Nat) (acc : Int) :
    rp ≤ evs.length → lp ≤ evs.length →
    cutLE evs (cd - step) ≤ rp → cutLE evs (cd - step - span) ≤ lp →
    acc = sumFrom evs lp - sumFrom evs rp →
    (∀ p ∈ scan evs span step cd rp lp acc,
        p.2 = windowSum evs span p.1 ∧ p.1 ≤ cd - step) ∧
    List.Chain' (fun p q : Int × Int => q.1 < p.1) (scan evs span step cd rp lp acc) := by
  induction cd, rp, lp, acc using scan.induct evs span step with
  | case1 cd rp acc =>
    intro _ _ _ _ _
    rw [scan, if_pos rfl]
    exact ⟨fun p hp => absurd hp (List.not_mem_nil p), List.chain'_nil⟩
  | case2 cd rp lp acc hlp0 rp' acc1 h1 lp' acc2 h2 ih =>
    intro hrlen hllen hrp hlp hacc
    have hsub := subLoop_spec hs (cd - step) rp hrlen hrp acc
    rw [h1] at hsub
    injection hsub with hrp' hacc1
    have hadd := addLoop_spec hs (cd - step) span lp hllen hlp acc1
    rw [h2] at hadd
    injection hadd with hlp' hacc2
    have hval : acc2 = windowSum evs span (cd - step) := by
      rw [windowSum_eq hs hsp]
      omega
    rw [scan_cons evs span step cd rp lp acc hlp0, h1, h2]
    by_cases hst : 0 < step
    · rw [if_pos hst]
      have hrec := ih hst (hrp' ▸ cutLE_le_length evs (cd - step))
        (hlp' ▸ cutLE_le_length evs (cd - step - span))
        (by rw [hrp']; exact cutLE_mono evs (by omega))
        (by rw [hlp']; exact cutLE_mono evs (by omega))
        (by rw [hrp', hlp']; omega)
      obtain ⟨hall, hchain⟩ := hrec
      constructor
      · intro p hp
        rcases List.mem_cons.mp hp with rfl | hp2
        · exact ⟨hval, le_refl _⟩
        · obtain ⟨hA, hB⟩ := hall p hp2
          exact ⟨hA, by omega⟩
      · rw [List.chain'_cons']
        refine ⟨fun q hq => ?_, hchain⟩
        have hq2 := (hall q (List.mem_of_mem_head? hq)).2
        omega
    · rw [if_neg hst]
      constructor
      · intro p hp
        rcases List.mem_cons.mp hp with rfl | hp2
        · exact ⟨hval, le_refl _⟩
        · exact absurd hp2 (List.not_mem_nil p)
      · exact List.chain'_singleton _

lemma sortPairs_sorted (l : List (Int × Int)) : List.Pairwise keyLE (sortPairs l) :=
  List.sorted_insertionSort keyLE l

/-- Master lemma about a successful `History.show`: every output point's
value is the trailing-window sum at its date, output dates never exceed the
last event date, and the output is strictly increasing in date. -/
lemma show_spec (lookup : List Char → Int × Int) (items : List (List Char × HistoryItem))
    {span step : Int} (hsp : 0 ≤ span) {samples : List (Int × Int)}
    (h : History.show lookup items span step = .ok samples) :
    (∀ p ∈ samples,
        p.2 = windowSum (sortPairs (buildDaily lookup items)) span p.1 ∧
        p.1 ≤ lastDate (sortPairs (buildDaily lookup items))) ∧
    List.Chain' (fun p q : Int × Int => p.1 < q.1) samples := by
  unfold History.show at h
  by_cases he : (sortPairs (buildDaily lookup items)).isEmpty
  · rw [if_pos he] at h
    exact absurd h (by simp)
  · rw [if_neg he] at h
    injection h with h
    subst h
    have hmain := scan_spec (sortPairs_sorted (buildDaily lookup items)) span step hsp
      (lastDate (sortPairs (buildDaily lookup items)) + step)
      (sortPairs (buildDaily lookup items)).length
      (sortPairs (buildDaily lookup items)).length 0
      (le_refl _) (le_refl _) (cutLE_le_length _ _) (cutLE_le_length _ _)
      (by rw [sumFrom_length]; ring)
    obtain ⟨hall, hchain⟩ := hmain
    constructor
    · intro p hp
      rw [List.mem_reverse] at hp
      obtain ⟨hA, hB⟩ := hall p hp
      exact ⟨hA, by omega⟩
    · rw [List.chain'_reverse]
      exact hchain

lemma buildDaily_empty (lookup : List Char → Int × Int)
    (items : List (List Char × HistoryItem)) (h : ∀ p ∈ items, p.2.timestamps = []) :
    buildDaily lookup items = [] := by
  unfold buildDaily
  induction items with
  | nil => rfl
  | cons p t ih =>
    rw [List.foldl_cons, if_pos (by rw [h p (List.mem_cons_self p t)]; rfl)]
    exact ih fun q hq => h q (List.mem_cons_of_mem p hq)

/-- C3 (amended): when every title's event log is empty there are zero dated
events, and `History.show` fails with the index error raised by unpacking
the empty sorted pair list (`kv[0]`), for all `span` and `step`, instead of
producing an empty series. -/
theorem show_zero_events_errors (lookup : List Char → Int × Int)
    (items : List (List Char × HistoryItem)) (span step : Int)
    (h : ∀ p ∈ items, p.2.timestamps = []) :
    History.show lookup items span step = .error "list index out of range" := by
  unfold History.show
  rw [buildDaily_empty lookup items h]
  rfl

/-- C3 witness for the amended claim: a ledger with one cleared title. -/
theorem show_zero_events_errors_witness :
    History.show (fun _ => (12, 24)) [("t".data, ⟨"t".data, "h".data, [], 0, 0⟩)] 49 14 =
      .error "list index out of range" :=
  show_zero_events_errors (fun _ => (12, 24)) [("t".data, ⟨"t".data, "h".data, [], 0, 0⟩)]
    49 14 (by decide)

/-- C3 counterexample to the claim as stated: with zero dated events and the
source's own `span=49`, `step=14`, the aggregator raises (models the
`IndexError` from `kv[0]` on the empty list) rather than returning an
empty/no-op result. -/
theorem show_zero_events_claim_ce :
    History.show (fun _ => (1, 1)) [] 49 14 = .error "list index out of range" := rfl

/-- C8: each sample of a successful `show` equals the sum over events whose
date `e` satisfies the strict trailing-window predicate `inWindow`, and that
predicate excludes an event exactly `span` days before the sample date while
including every event on or before the sample date that is strictly less
than `span` days old. -/
theorem show_window_boundary_strict (lookup : List Char → Int × Int)
    (items : List (List Char × HistoryItem)) {span step : Int} {samples : List (Int × Int)}
    (hsp : 0 < span) (hshow : History.show lookup items span step = .ok samples) :
    ∀ p ∈ samples,
      p.2 = windowSum (sortPairs (buildDaily lookup items)) span p.1 ∧
      ∀ e : Int, (p.1 - e = span → ¬ inWindow span p.1 e) ∧
        (0 ≤ p.1 - e → p.1 - e < span → inWindow span p.1 e) := by
  intro p hp
  refine ⟨((show_spec lookup items (le_of_lt hsp) hshow).1 p hp).1, fun e => ⟨?_, ?_⟩⟩
  · intro he
    unfold inWindow
    omega
  · intro h1 h2
    exact ⟨by omega, by omega⟩

/-- C9: a successful `show` output is strictly ascending in sample date, and
every output date lies strictly before the sentinel date `last_date + step`,
so the initial zero-valued sentinel point is not part of the output. -/
theorem show_series_ascending_sentinel_dropped (lookup : List Char → Int × Int)
    (items : List (List Char × HistoryItem)) {span step : Int} {samples : List (Int × Int)}
    (hsp : 0 < span) (hst : 0 < step)
    (hshow : History.show lookup items span step = .ok samples) :
    List.Chain' (fun p q : Int × Int => p.1 < q.1) samples ∧
    ∀ p ∈ samples, p.1 < lastDate (sortPairs (buildDaily lookup items)) + step := by
  obtain ⟨hall, hchain⟩ := show_spec lookup items (le_of_lt hsp) hshow
  exact ⟨hchain, fun p hp => by have := (hall p hp).2; omega⟩

lemma show_evalW : History.show lkW itemsW 1 1 = .ok [(0, 60)] := by
  rw [History.show]
  norm_num [buildDaily, itemsW, lkW, addResult, sortPairs, List.insertionSort, lastDate]
  rw [scan]
  norm_num [subLoop, addLoop]
  rw [scan]
  norm_num

/-- C8 witness at the concrete ledger `itemsW` with `span = step = 1`. -/
theorem show_window_boundary_strict_witness :
    (0 : Int) < 1 ∧
    ∀ p ∈ [((0 : Int), (60 : Int))],
      p.2 = windowSum (sortPairs (buildDaily lkW itemsW)) 1 p.1 ∧
      ∀ e : Int, (p.1 - e = 1 → ¬ inWindow 1 p.1 e) ∧
        (0 ≤ p.1 - e → p.1 - e < 1 → inWindow 1 p.1 e) :=
  ⟨by norm_num, show_window_boundary_strict lkW itemsW (by norm_num) show_evalW⟩

/-- C9 witness at the concrete ledger `itemsW` with `span = step = 1`. -/
theorem show_series_ascending_sentinel_dropped_witness :
    List.Chain' (fun p q : Int × Int => p.1 < q.1) [((0 : Int), (60 : Int))] ∧
    ∀ p ∈ [((0 : Int), (60 : Int))], p.1 < lastDate (sortPairs (buildDaily lkW itemsW)) + 1 :=
  show_series_ascending_sentinel_dropped lkW itemsW (by norm_num) (by norm_num) show_evalW

/-- C7: the pattern priority is fixed: a text containing the removal phrase
always yields `removed` (and a cleared record) whatever else it contains,
and a text with neither the removal phrase nor the viewing phrase always
yields `ignored` with the record untouched, before any count pattern is
tried. -/
theorem edit_priority_order (lookup : List Char → Int × Int) (it : HistoryItem)
    (action : List Char) (date : Int) :
    (containsSub action removalPhrase = true →
      it.edit lookup action date = .ok (.removed, it.clear)) ∧
    (containsSub action removalPhrase = false → containsSub action viewPhrase = false →
      it.edit lookup action date = .ok (.ignored, it)) := by
  constructor
  · intro h
    unfold HistoryItem.edit
    rw [if_pos h]
  · intro h1 h2
    unfold HistoryItem.edit
    rw [if_neg (by simp [h1]), if_pos h2]

/-- C7 witness: a removal text that also contains a count phrase and an
ordinal marker, and a non-viewing text that contains a count phrase. -/
theorem edit_priority_order_witness :
    containsSub "удалено из списка (5 эпизодов, 1-й)".data removalPhrase = true ∧
    HistoryItem.edit (fun _ => (0, 0)) ⟨"t".data, "h".data, [(3, 2)], 2, 1⟩
      "удалено из списка (5 эпизодов, 1-й)".data 7 =
      .ok (.removed, ⟨"t".data, "h".data, [], 0, 0⟩) ∧
    containsSub "добавлено в список (5 эпизодов)".data removalPhrase = false ∧
    containsSub "добавлено в список (5 эпизодов)".data viewPhrase = false ∧
    HistoryItem.edit (fun _ => (0, 0)) ⟨"t".data, "h".data, [(3, 2)], 2, 1⟩
      "добавлено в список (5 эпизодов)".data 7 =
      .ok (.ignored, ⟨"t".data, "h".data, [(3, 2)], 2, 1⟩) :=
  ⟨by decide,
   (edit_priority_order (fun _ => (0, 0)) ⟨"t".data, "h".data, [(3, 2)], 2, 1⟩
      "удалено из списка (5 эпизодов, 1-й)".data 7).1 (by decide),
   by decide, by decide,
   (edit_priority_order (fun _ => (0, 0)) ⟨"t".data, "h".data, [(3, 2)], 2, 1⟩
      "добавлено в список (5 эпизодов)".data 7).2 (by decide) (by decide)⟩

/-- C1 (amended): a removal action returns `removed` and replaces the state
by `clear()`, which empties the event log and zeroes `current_episode` — but
it also resets `completed_cycles` (`total_views`) to 0 rather than leaving
it unchanged. -/
theorem removal_clears_all (lookup : List Char → Int × Int) (it : HistoryItem)
    (action : List Char) (date : Int) (h : containsSub action removalPhrase = true) :
    it.edit lookup action date = .ok (.removed, it.clear) ∧
    it.clear.timestamps = [] ∧ it.clear.current_episode = 0 ∧ it.clear.total_views = 0 := by
  refine ⟨?_, rfl, rfl, rfl⟩
  unfold HistoryItem.edit
  rw [if_pos h]

/-- C1 witness: removal on a record with nonzero prior state. -/
theorem removal_clears_all_witness :
    containsSub "удалено из списка".data removalPhrase = true ∧
    HistoryItem.edit (fun _ => (0, 0)) ⟨"t".data, "h".data, [(5, 3)], 4, 2⟩
      "удалено из списка".data 9 = .ok (.removed, ⟨"t".data, "h".data, [], 0, 0⟩) ∧
    (HistoryItem.clear ⟨"t".data, "h".data, [(5, 3)], 4, 2⟩).timestamps = [] ∧
    (HistoryItem.clear ⟨"t".data, "h".data, [(5, 3)], 4, 2⟩).current_episode = 0 ∧
    (HistoryItem.clear ⟨"t".data, "h".data, [(5, 3)], 4, 2⟩).total_views = 0 := by
  have h := removal_clears_all (fun _ => (0, 0)) ⟨"t".data, "h".data, [(5, 3)], 4, 2⟩
    "удалено из списка".data 9 (by decide)
  exact ⟨by decide, h.1, h.2.1, h.2.2.1, h.2.2.2⟩

/-- C1 counterexample: on a record with `completed_cycles = 2`, a removal
action resets `completed_cycles` to 0, so removal does not leave
`completed_cycles` unchanged as claimed. -/
theorem removal_resets_completed_cycles_ce :
    HistoryItem.edit (fun _ => (0, 0)) ⟨"t".data, "h".data, [(5, 3)], 4, 2⟩
      "удалено из списка".data 9 = .ok (.removed, ⟨"t".data, "h".data, [], 0, 0⟩) ∧
    (⟨"t".data, "h".data, [(5, 3)], 4, 2⟩ : HistoryItem).total_views = 2 ∧
    (HistoryItem.clear ⟨"t".data, "h".data, [(5, 3)], 4, 2⟩).total_views ≠
      (⟨"t".data, "h".data, [(5, 3)], 4, 2⟩ : HistoryItem).total_views := by
  refine ⟨rfl, rfl, by decide⟩

/-- C4 (amended): for a viewing action that reaches the ordinal pattern (no
removal phrase, has the viewing phrase, no explicit count match), contains
at least one ordinal marker and no range connective, the delta is the total
number of ordinal markers found, duplicates included (the source uses
`len(ep_match)`, not a distinct count). -/
theorem ordinal_list_delta_count (lookup : List Char → Int × Int) (it : HistoryItem)
    (action : List Char) (date : Int)
    (h1 : containsSub action removalPhrase = false)
    (h2 : containsSub action viewPhrase = true)
    (h3 : findCounts action = [])
    (h4 : findOrdinals action ≠ [])
    (h5 : containsSub action rangePhrase = false) :
    it.edit lookup action date =
      .ok (.watched ((findOrdinals action).length : Int),
        { it with timestamps := it.timestamps ++ [(date, ((findOrdinals action).length : Int))],
                  current_episode := it.current_episode + ((findOrdinals action).length : Int) }) := by
  obtain ⟨m, rest, hm⟩ : ∃ m rest, findOrdinals action = m :: rest := by
    cases hmm : findOrdinals action with
    | nil => exact absurd hmm h4
    | cons a b => exact ⟨a, b, rfl⟩
  simp [HistoryItem.edit, h1, h2, h3, h5, hm]

/-- C4 witness for the amended claim: three comma/`и`-joined ordinals give
delta 3. -/
theorem ordinal_list_delta_count_witness :
    findOrdinals "просмотрены 1-й, 2-й и 3-й эпизоды".data = [['1'], ['2'], ['3']] ∧
    HistoryItem.edit (fun _ => (0, 0)) ⟨"t".data, "h".data, [], 0, 0⟩
      "просмотрены 1-й, 2-й и 3-й эпизоды".data 4 =
      .ok (.watched 3, ⟨"t".data, "h".data, [(4, 3)], 3, 0⟩) := by
  refine ⟨by decide, ?_⟩
  have h := ordinal_list_delta_count (fun _ => (0, 0)) ⟨"t".data, "h".data, [], 0, 0⟩
    "просмотрены 1-й, 2-й и 3-й эпизоды".data 4 (by decide) (by decide) (by decide)
    (by decide) (by decide)
  exact h

/-- C4 counterexample: a repeated ordinal is counted twice, not once: the
text has `1-й` twice, one distinct marker, yet the delta is 2. -/
theorem ordinal_list_duplicate_ce :
    HistoryItem.edit (fun _ => (0, 0)) ⟨"t".data, "h".data, [], 0, 0⟩
      "просмотрены 1-й и 1-й эпизоды".data 4 =
      .ok (.watched 2, ⟨"t".data, "h".data, [(4, 2)], 2, 0⟩) ∧
    (findOrdinals "просмотрены 1-й и 1-й эпизоды".data).dedup.length = 1 ∧
    ((2 : Int) ≠ ((findOrdinals "просмотрены 1-й и 1-й эпизоды".data).dedup.length : Int)) := by
  refine ⟨rfl, by decide, by decide⟩

/-- C5: for a viewing action that reaches the ordinal pattern and contains
the range connective ` по `: with exactly two ordinal markers `lo` then `hi`
(the spec's low/high, as in "с 5-го по 10-й"), the delta is `hi - lo + 1`;
with any other nonzero number of ordinal markers, `edit` raises the
malformed-range error. -/
theorem ordinal_range_delta (lookup : List Char → Int × Int) (it : HistoryItem)
    (action : List Char) (date : Int)
    (h1 : containsSub action removalPhrase = false)
    (h2 : containsSub action viewPhrase = true)
    (h3 : findCounts action = [])
    (h5 : containsSub action rangePhrase = true) :
    (∀ lo hi, findOrdinals action = [lo, hi] →
      it.edit lookup action date =
        .ok (.watched ((digitsToNat hi : Int) - (digitsToNat lo : Int) + 1),
          { it with
              timestamps := it.timestamps ++
                [(date, (digitsToNat hi : Int) - (digitsToNat lo : Int) + 1)],
              current_episode := it.current_episode +
                ((digitsToNat hi : Int) - (digitsToNat lo : Int) + 1) })) ∧
    (findOrdinals action ≠ [] → (∀ lo hi, findOrdinals action ≠ [lo, hi]) →
      it.edit lookup action date =
        .error ("Invalid action (episode range): " ++ String.mk action)) := by
  constructor
  · intro lo hi hm
    simp [HistoryItem.edit, h1, h2, h3, h5, hm]
  · intro hne h2p
    cases hm : findOrdinals action with
    | nil => exact absurd hm hne
    | cons m rest =>
      cases rest with
      | nil => simp [HistoryItem.edit, h1, h2, h3, h5, hm]
      | cons m2 rest2 =>
        cases rest2 with
        | nil => exact absurd hm (h2p m m2)
        | cons m3 rest3 => simp [HistoryItem.edit, h1, h2, h3, h5, hm]

/-- C5 witness: "с 5-го по 10-й" gives delta 6; a third ordinal with the
range connective raises the malformed-range error. -/
theorem ordinal_range_delta_witness :
    findOrdinals "просмотрены с 5-го по 10-й эпизоды".data = [['5'], ['1', '0']] ∧
    HistoryItem.edit (fun _ => (0, 0)) ⟨"t".data, "h".data, [], 0, 0⟩
      "просмотрены с 5-го по 10-й эпизоды".data 4 =
      .ok (.watched 6, ⟨"t".data, "h".data, [(4, 6)], 6, 0⟩) ∧
    HistoryItem.edit (fun _ => (0, 0)) ⟨"t".data, "h".data, [], 0, 0⟩
      "просмотрены с 5-го по 10-й и 12-й эпизоды".data 4 =
      .error ("Invalid action (episode range): " ++
        String.mk "просмотрены с 5-го по 10-й и 12-й эпизоды".data) := by
  refine ⟨by decide, ?_, ?_⟩
  · exact (ordinal_range_delta (fun _ => (0, 0)) ⟨"t".data, "h".data, [], 0, 0⟩
      "просмотрены с 5-го по 10-й эпизоды".data 4 (by decide) (by decide) (by decide)
      (by decide)).1 ['5'] ['1', '0'] (by decide)
  · refine (ordinal_range_delta (fun _ => (0, 0)) ⟨"t".data, "h".data, [], 0, 0⟩
      "просмотрены с 5-го по 10-й и 12-й эпизоды".data 4 (by decide) (by decide) (by decide)
      (by decide)).2 (by decide) ?_
    intro lo hi h
    have h3 : ([['5'], ['1', '0'], ['1', '2']] : List (List Char)) = [lo, hi] := h
    simp at h3

/-- C6: for a viewing action with no parsed count at all (fallback
completion), `edit` raises the on-going error exactly when the looked-up
total is 0; otherwise it appends `(date, total - current_episode)` to the
event log, resets `current_episode` to 0, increments `completed_cycles`
by 1 and returns `CycleCompleted` with that delta and the new counter. -/
theorem fallback_completion_spec (lookup : List Char → Int × Int) (it : HistoryItem)
    (action : List Char) (date : Int)
    (h1 : containsSub action removalPhrase = false)
    (h2 : containsSub action viewPhrase = true)
    (h3 : findCounts action = [])
    (h4 : findOrdinals action = []) :
    ((lookup it.href).1 = 0 →
      it.edit lookup action date = .error "Trying to complete on-going anime") ∧
    ((lookup it.href).1 ≠ 0 →
      it.edit lookup action date =
        .ok (.completedView ((lookup it.href).1 - it.current_episode) (it.total_views + 1),
          { it with
              timestamps := it.timestamps ++ [(date, (lookup it.href).1 - it.current_episode)],
              current_episode := 0,
              total_views := it.total_views + 1 })) := by
  constructor
  · intro h0
    simp [HistoryItem.edit, h1, h2, h3, h4, h0]
  · intro h0
    simp [HistoryItem.edit, h1, h2, h3, h4, h0]

/-- C6 witness: with `current_episode = 3` and total 12 the fallback yields
delta 9, resets progress and closes the first cycle; with total 0 the same
action fails fatally. -/
theorem fallback_completion_spec_witness :
    HistoryItem.edit (fun _ => (12, 24)) ⟨"t".data, "h".data, [(1, 3)], 3, 0⟩
      "просмотрено".data 8 =
      .ok (.completedView 9 1, ⟨"t".data, "h".data, [(1, 3), (8, 9)], 0, 1⟩) ∧
    HistoryItem.edit (fun _ => (0, 24)) ⟨"t".data, "h".data, [(1, 3)], 3, 0⟩
      "просмотрено".data 8 = .error "Trying to complete on-going anime" := by
  constructor
  · exact (fallback_completion_spec (fun _ => (12, 24)) ⟨"t".data, "h".data, [(1, 3)], 3, 0⟩
      "просмотрено".data 8 (by decide) (by decide) (by decide) (by decide)).2 (by decide)
  · exact (fallback_completion_spec (fun _ => (0, 24)) ⟨"t".data, "h".data, [(1, 3)], 3, 0⟩
      "просмотрено".data 8 (by decide) (by decide) (by decide) (by decide)).1 (by decide)

/-- Exhaustive case analysis of a successful `edit`: the four outcomes, each
with the exact state update the source performs, and for the two
delta-producing outcomes the pattern facts that selected the branch. -/
lemma edit_cases (lookup : List Char → Int × Int) (it : HistoryItem) (action : List Char)
    (date : Int) (res : EditResult) (it2 : HistoryItem)
    (h : it.edit lookup action date = .ok (res, it2)) :
    (res = .removed ∧ it2 = it.clear) ∨
    (res = .ignored ∧ it2 = it) ∨
    (∃ d, res = .watched d ∧
       it2 = { it with timestamps := it.timestamps ++ [(date, d)],
                       current_episode := it.current_episode + d } ∧
       (findCounts action ≠ [] ∨ findOrdinals action ≠ [])) ∨
    (res = .completedView ((lookup it.href).1 - it.current_episode) (it.total_views + 1) ∧
       it2 = { it with
                 timestamps := it.timestamps ++
                   [(date, (lookup it.href).1 - it.current_episode)],
                 current_episode := 0, total_views := it.total_views + 1 } ∧
       findCounts action = [] ∧ findOrdinals action = []) := by
  by_cases hrem : containsSub action removalPhrase = true
  · refine Or.inl ?_
    simp [HistoryItem.edit, hrem, if_true, Except.ok.injEq, Prod.mk.injEq] at h
    exact ⟨h.1.symm, h.2.symm⟩
  · by_cases hview : containsSub action viewPhrase = false
    · refine Or.inr (Or.inl ?_)
      simp [HistoryItem.edit, hrem, hview, if_true, if_false, Except.ok.injEq,
        Prod.mk.injEq] at h
      exact ⟨h.1.symm, h.2.symm⟩
    · cases hfc : findCounts action with
      | cons ds tail =>
        refine Or.inr (Or.inr (Or.inl ⟨(digitsToNat ds : Int), ?_⟩))
        simp [HistoryItem.edit, hrem, hview, hfc, if_true, if_false, Except.ok.injEq,
          Prod.mk.injEq] at h
        exact ⟨h.1.symm, h.2.symm, Or.inl (by simp [hfc])⟩
      | nil =>
        cases hfo : findOrdinals action with
        | nil =>
          by_cases ht : (lookup it.href).1 = 0
          · simp [HistoryItem.edit, hrem, hview, hfc, hfo, ht, if_true, if_false] at h
          · refine Or.inr (Or.inr (Or.inr ?_))
            simp [HistoryItem.edit, hrem, hview, hfc, hfo, ht, if_true, if_false,
              Except.ok.injEq, Prod.mk.injEq] at h
            exact ⟨h.1.symm, h.2.symm, rfl, rfl⟩
        | cons m rest =>
          by_cases hpo : containsSub action rangePhrase = false
          · refine Or.inr (Or.inr (Or.inl ⟨((m :: rest).length : Int), ?_⟩))
            simp [HistoryItem.edit, hrem, hview, hfc, hfo, hpo, if_true, if_false,
              Except.ok.injEq, Prod.mk.injEq] at h
            exact ⟨h.1.symm, h.2.symm, Or.inr (by simp [hfo])⟩
          · cases rest with
            | nil =>
              simp [HistoryItem.edit, hrem, hview, hfc, hfo, hpo, if_true, if_false] at h
            | cons m2 rest2 =>
              cases rest2 with
              | nil =>
                refine Or.inr (Or.inr (Or.inl
                  ⟨(digitsToNat m2 : Int) - (digitsToNat m : Int) + 1, ?_⟩))
                simp [HistoryItem.edit, hrem, hview, hfc, hfo, hpo, if_true, if_false,
                  Except.ok.injEq, Prod.mk.injEq] at h
                exact ⟨h.1.symm, h.2.symm, Or.inr (by simp [hfo])⟩
              | cons m3 rest3 =>
                simp [HistoryItem.edit, hrem, hview, hfc, hfo, hpo, if_true,
                  if_false] at h

/-- `edit` never changes the stored link or title of a record. -/
lemma edit_preserves_id (lookup : List Char → Int × Int) (it : HistoryItem)
    (action : List Char) (date : Int) (res : EditResult) (it2 : HistoryItem)
    (h : it.edit lookup action date = .ok (res, it2)) :
    it2.href = it.href ∧ it2.title = it.title := by
  rcases edit_cases lookup it action date res it2 h with
    ⟨_, hit⟩ | ⟨_, hit⟩ | ⟨d, _, hit, _⟩ | ⟨_, hit, _, _⟩ <;> subst hit <;> exact ⟨rfl, rfl⟩

/-- C2 (amended): a `PartialProgress` edit (explicit count or ordinal
pattern) adds its delta to `current_episode` unconditionally — the known
total is never consulted, so the total can be exceeded — while the
cycle-completion path is taken exactly for viewing actions in which no
count and no ordinal parses, and it resets `current_episode` to 0. -/
theorem edit_current_episode_update (lookup : List Char → Int × Int) (it : HistoryItem)
    (action : List Char) (date : Int) (res : EditResult) (it2 : HistoryItem)
    (h : it.edit lookup action date = .ok (res, it2)) :
    (∀ d, res = .watched d →
       it2.current_episode = it.current_episode + d ∧
       (findCounts action ≠ [] ∨ findOrdinals action ≠ [])) ∧
    (∀ d v, res = .completedView d v →
       it2.current_episode = 0 ∧ d = (lookup it.href).1 - it.current_episode ∧
       findCounts action = [] ∧ findOrdinals action = []) := by
  rcases edit_cases lookup it action date res it2 h with
    ⟨hres, hit⟩ | ⟨hres, hit⟩ | ⟨d, hres, hit, hpat⟩ | ⟨hres, hit, hc, ho⟩
  · subst hres
    exact ⟨(fun d hd => nomatch hd), (fun d v hd => nomatch hd)⟩
  · subst hres
    exact ⟨(fun d hd => nomatch hd), (fun d v hd => nomatch hd)⟩
  · subst hres
    constructor
    · intro d' hd'
      injection hd' with hdd
      subst hdd
      subst hit
      exact ⟨rfl, hpat⟩
    · intro d' v hd'
      cases hd'
  · subst hres
    constructor
    · intro d' hd'
      cases hd'
    · intro d' v hd'
      injection hd' with hdd hvv
      subst hdd
      subst hit
      exact ⟨rfl, rfl, hc, ho⟩

/-- C2 witness: a watched edit adds its delta, a fallback edit resets
`current_episode` to 0. -/
theorem edit_current_episode_update_witness :
    ((HistoryItem.edit (fun _ => (3, 20)) ⟨"t".data, "h".data, [], 0, 0⟩
        "просмотрено 5 эпизодов".data 1 =
      .ok (.watched 5, ⟨"t".data, "h".data, [(1, 5)], 5, 0⟩)) ∧
     (5 : Int) = 0 + 5 ∧ (findCounts "просмотрено 5 эпизодов".data ≠ [] ∨
       findOrdinals "просмотрено 5 эпизодов".data ≠ [])) ∧
    ((HistoryItem.edit (fun _ => (12, 20)) ⟨"t".data, "h".data, [], 3, 0⟩
        "просмотрено".data 1 =
      .ok (.completedView 9 1, ⟨"t".data, "h".data, [(1, 9)], 0, 1⟩)) ∧
     (0 : Int) = 0 ∧ (9 : Int) = 12 - 3) := by
  constructor
  · have h := (edit_current_episode_update (fun _ => (3, 20)) ⟨"t".data, "h".data, [], 0, 0⟩
      "просмотрено 5 эпизодов".data 1 (.watched 5) ⟨"t".data, "h".data, [(1, 5)], 5, 0⟩
      rfl).1 5 rfl
    exact ⟨rfl, h.1, h.2⟩
  · have h := (edit_current_episode_update (fun _ => (12, 20)) ⟨"t".data, "h".data, [], 3, 0⟩
      "просмотрено".data 1 (.completedView 9 1) ⟨"t".data, "h".data, [(1, 9)], 0, 1⟩
      rfl).2 9 1 rfl
    exact ⟨rfl, h.1, h.2.1⟩

/-- C2 counterexample: with known positive total 3, the explicit-count
action "просмотрено 5 эпизодов" is returned as `PartialProgress` with
`current_episode = 5 > 3`; it is not routed through the completion path. -/
theorem current_episode_exceeds_total_ce :
    HistoryItem.edit (fun _ => (3, 20)) ⟨"t".data, "h".data, [], 0, 0⟩
      "просмотрено 5 эпизодов".data 1 =
      .ok (.watched 5, ⟨"t".data, "h".data, [(1, 5)], 5, 0⟩) ∧
    ((fun _ : List Char => ((3 : Int), (20 : Int))) "h".data).1 = 3 ∧
    ¬((5 : Int) ≤ 3) :=
  ⟨rfl, rfl, by decide⟩

/-- C10: starting from an empty ledger, two entries with the same display
title but different links are routed to one single record, keyed by the
display title, and the stored link is the one from the first entry; the
second entry's link is never stored. -/
theorem ledger_keyed_by_title (lookup : List Char → Int × Int) (t hr1 hr2 a1 a2 : List Char)
    (d1 d2 : Int) (m1 m2 : List (List Char × HistoryItem))
    (hp1 : History.process lookup [] ⟨some hr1, t, a1, d1⟩ = .ok m1)
    (hp2 : History.process lookup m1 ⟨some hr2, t, a2, d2⟩ = .ok m2) :
    ∃ r : HistoryItem, m2 = [(t, r)] ∧ r.href = hr1 ∧ r.title = t := by
  unfold History.process at hp1
  simp only [findItem, setItem, if_true, ite_true] at hp1
  rcases he1 : HistoryItem.edit lookup ⟨t, hr1, [], 0, 0⟩ a1 d1 with m | ⟨res1, it1⟩
  · rw [he1] at hp1
    simp at hp1
  · rw [he1] at hp1
    simp only [Except.ok.injEq] at hp1
    subst hp1
    unfold History.process at hp2
    simp only [findItem, setItem, if_true, ite_true] at hp2
    rcases he2 : HistoryItem.edit lookup it1 a2 d2 with m | ⟨res2, it2⟩
    · rw [he2] at hp2
      simp at hp2
    · rw [he2] at hp2
      simp only [Except.ok.injEq] at hp2
      subst hp2
      have hid1 := edit_preserves_id lookup ⟨t, hr1, [], 0, 0⟩ a1 d1 res1 it1 he1
      have hid2 := edit_preserves_id lookup it1 a2 d2 res2 it2 he2
      exact ⟨it2, rfl, by rw [hid2.1, hid1.1], by rw [hid2.2, hid1.2]⟩

/-- C10 witness: same display title "A", different links "u" then "v"; the
single resulting record keeps the first link. -/
theorem ledger_keyed_by_title_witness :
    ∃ r : HistoryItem,
      [(("A".data : List Char), (⟨"A".data, "u".data, [], 0, 0⟩ : HistoryItem))] =
        [("A".data, r)] ∧
      r.href = "u".data ∧ r.title = "A".data :=
  ledger_keyed_by_title (fun _ => (0, 0)) "A".data "u".data "v".data "x".data "y".data 1 2
    [("A".data, ⟨"A".data, "u".data, [], 0, 0⟩)] [("A".data, ⟨"A".data, "u".data, [], 0, 0⟩)]
    rfl rfl

end ShikiMap
